import Mathlib

/-!
Verification of the Persian text-cleaning batch tool
(`uneditbooktext/editortext.py`).

Texts are shallowly embedded as `List Char`.  The tokenizer (the external
`stanza` pipeline), the line-diff engine (`difflib.ndiff`) and the file
system (`open`/`os.remove`/`os.listdir`) are external collaborators; they
appear as explicit function parameters and oracles, exactly in the places
the Python code calls them.  Everything else is translated from the source
line by line.

The Python word-character class in the regex `[^\w\s\.\،:]` depends on the
regex engine's Unicode tables, so it is a parameter `w : Char → Bool`
throughout; every theorem below holds for an arbitrary `w`.
-/

namespace EditorText

/-- The characters removed by `re.sub(r'[ـ\-_]+', '', …)` (editortext.py
line 29): the tatweel `ـ` (U+0640), the ASCII hyphen `-`, the underscore
`_`.  Substituting the empty string for every run of these characters is
the same as deleting each occurrence. -/
def isSpecialChar (c : Char) : Bool :=
  c = 'ـ' || c = '-' || c = '_'

/-- The whitespace class of Python's `re` module and of `str.strip` /
`str.isspace`, used by `\s` in `re.sub(r'\s+', ' ', …)` (line 35). -/
def isSpaceChar (c : Char) : Bool :=
  c = ' ' || c = '\t' || c = '\n' || c = '\r' || c = '\x0b' || c = '\x0c' ||
  c = '\x1c' || c = '\x1d' || c = '\x1e' || c = '\x1f' || c = '\x85' ||
  c = '\xa0' || c = '\u1680' ||
  (0x2000 ≤ c.toNat && c.toNat ≤ 0x200a) ||
  c = '\u2028' || c = '\u2029' || c = '\u202f' || c = '\u205f' || c = '\u3000'

/-- The characters kept by `re.sub(r'[^\w\s\.\،:]', '', …)` (line 32):
word characters (`\w`, the parameter `w`), whitespace, the period, the
Persian comma `،` (U+060C), and the colon. -/
def isKeptChar (w : Char → Bool) (c : Char) : Bool :=
  w c || isSpaceChar c || c = '.' || c = '،' || c = ':'

/-- `' '.join(tokens)` (line 26). -/
def joinTokens : List (List Char) → List Char
  | [] => []
  | [t] => t
  | t :: ts => t ++ ' ' :: joinTokens ts

/-- `re.sub(r'[ـ\-_]+', '', s)` (line 29): delete every tatweel, hyphen
and underscore. -/
def removeSpecial (l : List Char) : List Char :=
  l.filter fun c => !isSpecialChar c

/-- `re.sub(r'[^\w\s\.\،:]', '', s)` (line 32): keep only whitelisted
characters. -/
def filterAllowed (w : Char → Bool) (l : List Char) : List Char :=
  l.filter (isKeptChar w)

/-- `re.sub(r'\s+', ' ', s)` (line 35): replace every maximal run of
whitespace characters by a single ASCII space. -/
def collapseWS : List Char → List Char
  | [] => []
  | [c] => if isSpaceChar c then [' '] else [c]
  | c1 :: c2 :: rest =>
    if isSpaceChar c1 then
      if isSpaceChar c2 then collapseWS (c2 :: rest)
      else ' ' :: collapseWS (c2 :: rest)
    else c1 :: collapseWS (c2 :: rest)

/-- Helper for `.strip()`: remove the trailing run of whitespace. -/
def dropTrailingWS : List Char → List Char
  | [] => []
  | c :: cs =>
    match dropTrailingWS cs with
    | [] => if isSpaceChar c then [] else [c]
    | r => c :: r

/-- `.strip()` (line 35): remove leading and trailing whitespace. -/
def stripEnds (l : List Char) : List Char :=
  dropTrailingWS (l.dropWhile isSpaceChar)

/-- The pure part of `clean_persian_text` (lines 26-36), acting on the
token sequence the tokenizer produced: join with single spaces, delete
tatweel/hyphen/underscore, apply the punctuation whitelist, collapse
whitespace, strip the ends. -/
def cleanFromTokens (w : Char → Bool) (ts : List (List Char)) : List Char :=
  stripEnds (collapseWS (filterAllowed w (removeSpecial (joinTokens ts))))

/-- `clean_persian_text` (lines 12-36): tokenize the text with the
external tokenizer `tok` (the stanza pipeline, flattened over sentences,
lines 21-25), then normalize the token sequence. -/
def clean_persian_text (w : Char → Bool) (tok : List Char → List (List Char))
    (text : List Char) : List Char :=
  cleanFromTokens w (tok text)


/-! ### Basic facts about the filtering and whitespace passes -/

theorem mem_removeSpecial {c : Char} {l : List Char} (h : c ∈ removeSpecial l) :
    c ∈ l ∧ isSpecialChar c = false := by
  simp only [removeSpecial, List.mem_filter, Bool.not_eq_true'] at h
  exact h

theorem mem_filterAllowed {w : Char → Bool} {c : Char} {l : List Char}
    (h : c ∈ filterAllowed w l) : c ∈ l ∧ isKeptChar w c = true := by
  simp only [filterAllowed, List.mem_filter] at h
  exact h

theorem mem_collapseWS {c : Char} {l : List Char} (h : c ∈ collapseWS l) :
    c = ' ' ∨ (c ∈ l ∧ isSpaceChar c = false) := by
  induction l with
  | nil => simp [collapseWS] at h
  | cons c1 tail ih =>
    cases tail with
    | nil =>
      by_cases h1 : isSpaceChar c1 <;> simp [collapseWS, h1] at h <;> simp [h, h1]
    | cons c2 rest =>
      by_cases h1 : isSpaceChar c1
      · by_cases h2 : isSpaceChar c2
        · rw [collapseWS, if_pos h1, if_pos h2] at h
          rcases ih h with h' | h'
          · exact Or.inl h'
          · exact Or.inr ⟨List.mem_cons_of_mem _ h'.1, h'.2⟩
        · rw [collapseWS, if_pos h1, if_neg h2] at h
          rcases List.mem_cons.mp h with h' | h'
          · exact Or.inl h'
          · rcases ih h' with h'' | h''
            · exact Or.inl h''
            · exact Or.inr ⟨List.mem_cons_of_mem _ h''.1, h''.2⟩
      · rw [collapseWS, if_neg h1] at h
        rcases List.mem_cons.mp h with h' | h'
        · subst h'; exact Or.inr ⟨List.mem_cons_self _ _, by simpa using h1⟩
        · rcases ih h' with h'' | h''
          · exact Or.inl h''
          · exact Or.inr ⟨List.mem_cons_of_mem _ h''.1, h''.2⟩

theorem head?_collapseWS {c : Char} {cs : List Char} (h : isSpaceChar c = false) :
    (collapseWS (c :: cs)).head? = some c := by
  cases cs <;> simp [collapseWS, h]

theorem chain'_collapseWS (l : List Char) :
    List.Chain' (fun a b => isSpaceChar a = false ∨ isSpaceChar b = false)
      (collapseWS l) := by
  induction l with
  | nil => simp [collapseWS]
  | cons c1 tail ih =>
    cases tail with
    | nil => by_cases h1 : isSpaceChar c1 <;> simp [collapseWS, h1]
    | cons c2 rest =>
      by_cases h1 : isSpaceChar c1
      · by_cases h2 : isSpaceChar c2
        · rw [collapseWS, if_pos h1, if_pos h2]; exact ih
        · rw [collapseWS, if_pos h1, if_neg h2]
          refine List.chain'_cons'.mpr ⟨?_, ih⟩
          intro y hy
          rw [head?_collapseWS (by simpa using h2)] at hy
          simp only [Option.mem_def, Option.some.injEq] at hy
          subst hy
          exact Or.inr (by simpa using h2)
      · rw [collapseWS, if_neg h1]
        refine List.chain'_cons'.mpr ⟨?_, ih⟩
        intro y _
        exact Or.inl (by simpa using h1)

theorem collapseWS_eq_self {l : List Char}
    (hsp : ∀ c ∈ l, isSpaceChar c = true → c = ' ')
    (hch : List.Chain' (fun a b => isSpaceChar a = false ∨ isSpaceChar b = false) l) :
    collapseWS l = l := by
  induction l with
  | nil => simp [collapseWS]
  | cons c1 tail ih =>
    cases tail with
    | nil =>
      by_cases h1 : isSpaceChar c1
      · have e1 : c1 = ' ' := hsp c1 (List.mem_cons_self _ _) h1
        simp [collapseWS, h1, e1]
      · simp [collapseWS, h1]
    | cons c2 rest =>
      have hsp' : ∀ c ∈ c2 :: rest, isSpaceChar c = true → c = ' ' :=
        fun c hc => hsp c (List.mem_cons_of_mem _ hc)
      have hR := (List.chain'_cons.mp hch).1
      have hch' := (List.chain'_cons.mp hch).2
      by_cases h1 : isSpaceChar c1
      · have h2 : isSpaceChar c2 = false := by
          rcases hR with h | h
          · rw [h1] at h; cases h
          · exact h
        have e1 : c1 = ' ' := hsp c1 (List.mem_cons_self _ _) h1
        rw [collapseWS, if_pos h1, if_neg (by simp [h2]), ih hsp' hch', e1]
      · rw [collapseWS, if_neg h1, ih hsp' hch']

theorem mem_dropTrailingWS {c : Char} {l : List Char} (h : c ∈ dropTrailingWS l) :
    c ∈ l := by
  induction l with
  | nil => simp [dropTrailingWS] at h
  | cons c1 cs ih =>
    rw [dropTrailingWS] at h
    cases hdtw : dropTrailingWS cs with
    | nil =>
      rw [hdtw] at h
      by_cases h1 : isSpaceChar c1 <;> simp [h1] at h <;> simp [h]
    | cons d ds =>
      rw [hdtw] at h
      rcases List.mem_cons.mp h with h' | h'
      · simp [h']
      · exact List.mem_cons_of_mem _ (ih (hdtw ▸ h'))

theorem head?_dropTrailingWS {l : List Char} {d : Char} {ds : List Char}
    (h : dropTrailingWS l = d :: ds) : l.head? = some d := by
  cases l with
  | nil => simp [dropTrailingWS] at h
  | cons c1 cs =>
    rw [dropTrailingWS] at h
    cases hdtw : dropTrailingWS cs with
    | nil =>
      rw [hdtw] at h
      by_cases h1 : isSpaceChar c1 <;> simp [h1] at h <;> simp [h]
    | cons e es =>
      rw [hdtw] at h
      simp_all

theorem getLast?_dropTrailingWS {c : Char} {l : List Char}
    (h : (dropTrailingWS l).getLast? = some c) : isSpaceChar c = false := by
  induction l with
  | nil => simp [dropTrailingWS] at h
  | cons c1 cs ih =>
    rw [dropTrailingWS] at h
    cases hdtw : dropTrailingWS cs with
    | nil =>
      rw [hdtw] at h
      by_cases h1 : isSpaceChar c1
      · simp [h1] at h
      · simp [h1, List.getLast?_singleton] at h
        subst h
        simpa using h1
    | cons d ds =>
      rw [hdtw] at h
      rw [List.getLast?_cons_cons] at h
      exact ih (hdtw ▸ h)

theorem chain'_dropTrailingWS {R : Char → Char → Prop} {l : List Char}
    (h : List.Chain' R l) : List.Chain' R (dropTrailingWS l) := by
  induction l with
  | nil => simp [dropTrailingWS]
  | cons c1 cs ih =>
    rw [dropTrailingWS]
    cases hdtw : dropTrailingWS cs with
    | nil =>
      by_cases h1 : isSpaceChar c1 <;> simp [h1]
    | cons d ds =>
      refine List.chain'_cons'.mpr ⟨?_, hdtw ▸ ih h.tail⟩
      intro y hy
      simp only [List.head?_cons, Option.mem_def, Option.some.injEq] at hy
      subst hy
      have hcs : cs.head? = some d := head?_dropTrailingWS hdtw
      cases cs with
      | nil => simp at hcs
      | cons e es =>
        simp only [List.head?_cons, Option.some.injEq] at hcs
        subst hcs
        exact (List.chain'_cons.mp h).1

theorem dropTrailingWS_eq_self {l : List Char}
    (h : ∀ c, l.getLast? = some c → isSpaceChar c = false) :
    dropTrailingWS l = l := by
  induction l with
  | nil => simp [dropTrailingWS]
  | cons c1 cs ih =>
    rw [dropTrailingWS]
    cases cs with
    | nil =>
      have := h c1 (by simp)
      simp [dropTrailingWS, this]
    | cons d ds =>
      have hds : dropTrailingWS (d :: ds) = d :: ds := by
        refine ih fun c hc => h c ?_
        rw [List.getLast?_cons_cons]
        exact hc
      rw [hds]

theorem mem_dropWhileWS {c : Char} {l : List Char}
    (h : c ∈ l.dropWhile isSpaceChar) : c ∈ l :=
  (List.dropWhile_sublist _).mem h

theorem head?_dropWhileWS {c : Char} {l : List Char}
    (h : (l.dropWhile isSpaceChar).head? = some c) : isSpaceChar c = false := by
  induction l with
  | nil => simp [List.dropWhile] at h
  | cons c1 cs ih =>
    rw [List.dropWhile_cons] at h
    by_cases h1 : isSpaceChar c1
    · rw [if_pos (by simp [h1])] at h
      exact ih h
    · rw [if_neg (by simp [h1])] at h
      simp only [List.head?_cons, Option.some.injEq] at h
      subst h
      simpa using h1

theorem chain'_dropWhileWS {R : Char → Char → Prop} {l : List Char}
    (h : List.Chain' R l) : List.Chain' R (l.dropWhile isSpaceChar) := by
  induction l with
  | nil => simp at h ⊢
  | cons c1 cs ih =>
    rw [List.dropWhile_cons]
    by_cases h1 : isSpaceChar c1
    · rw [if_pos (by simp [h1])]
      exact ih h.tail
    · rw [if_neg (by simp [h1])]
      exact h

theorem mem_stripEnds {c : Char} {l : List Char} (h : c ∈ stripEnds l) : c ∈ l :=
  mem_dropWhileWS (mem_dropTrailingWS h)

theorem head?_stripEnds {c : Char} {l : List Char}
    (h : (stripEnds l).head? = some c) : isSpaceChar c = false := by
  unfold stripEnds at h
  cases hdtw : dropTrailingWS (l.dropWhile isSpaceChar) with
  | nil => rw [hdtw] at h; simp at h
  | cons d ds =>
    rw [hdtw] at h
    simp only [List.head?_cons, Option.some.injEq] at h
    subst h
    exact head?_dropWhileWS (head?_dropTrailingWS hdtw)

theorem getLast?_stripEnds {c : Char} {l : List Char}
    (h : (stripEnds l).getLast? = some c) : isSpaceChar c = false :=
  getLast?_dropTrailingWS h

theorem chain'_stripEnds {R : Char → Char → Prop} {l : List Char}
    (h : List.Chain' R l) : List.Chain' R (stripEnds l) :=
  chain'_dropTrailingWS (chain'_dropWhileWS h)

theorem stripEnds_eq_self {l : List Char}
    (hh : ∀ c, l.head? = some c → isSpaceChar c = false)
    (hl : ∀ c, l.getLast? = some c → isSpaceChar c = false) :
    stripEnds l = l := by
  unfold stripEnds
  have hdw : l.dropWhile isSpaceChar = l := by
    cases l with
    | nil => simp
    | cons c1 cs =>
      have := hh c1 (by simp)
      rw [List.dropWhile_cons, if_neg (by simp [this])]
  rw [hdw]
  exact dropTrailingWS_eq_self hl

/-! ### Characterization of the Normalizer output -/

theorem mem_cleanFromTokens {w : Char → Bool} {ts : List (List Char)} {c : Char}
    (h : c ∈ cleanFromTokens w ts) :
    isSpecialChar c = false ∧ isKeptChar w c = true ∧ (isSpaceChar c = true → c = ' ') := by
  unfold cleanFromTokens at h
  have h1 := mem_stripEnds h
  rcases mem_collapseWS h1 with rfl | ⟨h2, hns⟩
  · refine ⟨by decide, ?_, fun _ => rfl⟩
    unfold isKeptChar
    rw [show isSpaceChar ' ' = true from by decide]
    simp
  · have h3 := mem_filterAllowed h2
    have h4 := mem_removeSpecial h3.1
    exact ⟨h4.2, h3.2, fun hs => absurd hs (by simp [hns])⟩

theorem chain'_cleanFromTokens (w : Char → Bool) (ts : List (List Char)) :
    List.Chain' (fun a b => isSpaceChar a = false ∨ isSpaceChar b = false)
      (cleanFromTokens w ts) :=
  chain'_stripEnds (chain'_collapseWS _)

theorem head?_cleanFromTokens {w : Char → Bool} {ts : List (List Char)} {c : Char}
    (h : (cleanFromTokens w ts).head? = some c) : isSpaceChar c = false :=
  head?_stripEnds h

theorem getLast?_cleanFromTokens {w : Char → Bool} {ts : List (List Char)} {c : Char}
    (h : (cleanFromTokens w ts).getLast? = some c) : isSpaceChar c = false :=
  getLast?_stripEnds h

/-- The strip/whitelist/collapse/trim transform fixes the Normalizer output. -/
theorem cleanFromTokens_fixed (w : Char → Bool) (ts : List (List Char)) :
    stripEnds (collapseWS (filterAllowed w (removeSpecial (cleanFromTokens w ts)))) =
      cleanFromTokens w ts := by
  have h1 : removeSpecial (cleanFromTokens w ts) = cleanFromTokens w ts := by
    unfold removeSpecial
    rw [List.filter_eq_self]
    intro a ha
    simp [(mem_cleanFromTokens ha).1]
  have h2 : filterAllowed w (cleanFromTokens w ts) = cleanFromTokens w ts := by
    unfold filterAllowed
    rw [List.filter_eq_self]
    intro a ha
    exact (mem_cleanFromTokens ha).2.1
  have h3 : collapseWS (cleanFromTokens w ts) = cleanFromTokens w ts :=
    collapseWS_eq_self (fun c hc => (mem_cleanFromTokens hc).2.2)
      (chain'_cleanFromTokens w ts)
  have h4 : stripEnds (cleanFromTokens w ts) = cleanFromTokens w ts :=
    stripEnds_eq_self (fun c hc => head?_cleanFromTokens hc)
      (fun c hc => getLast?_cleanFromTokens hc)
  rw [h1, h2, h3, h4]

/-- A sample instantiation of the environment-dependent word-character class
`\w` (ASCII letters, digits, underscore), used only to evaluate theorems at
concrete inputs. -/
def wordAscii (c : Char) : Bool := c.isAlphanum || c = '_'

/-- A stub tokenizer that returns the whole text as one token, used only to
evaluate theorems at concrete inputs. -/
def tokWhole (t : List Char) : List (List Char) := [t]

/-! ### The claims about the Normalizer -/

/-- C1: for every input text, every character of the string returned by
`clean_persian_text` is not the tatweel, not the ASCII hyphen and not the
underscore, and lies in the whitelist: word characters (the class `w`),
whitespace, period, Persian comma, colon. -/
theorem c1_character_set (w : Char → Bool) (tok : List Char → List (List Char))
    (text : List Char) (c : Char) (h : c ∈ clean_persian_text w tok text) :
    c ≠ 'ـ' ∧ c ≠ '-' ∧ c ≠ '_' ∧
      (w c = true ∨ isSpaceChar c = true ∨ c = '.' ∨ c = '،' ∨ c = ':') := by
  obtain ⟨h1, h2, -⟩ := mem_cleanFromTokens h
  simp only [isSpecialChar, Bool.or_eq_false_iff, decide_eq_false_iff_not] at h1
  simp only [isKeptChar, Bool.or_eq_true, decide_eq_true_eq] at h2
  exact ⟨h1.1.1, h1.1.2, h1.2, by tauto⟩

/-- Witness for C1 at a concrete input. -/
theorem c1_character_set_witness :
    'a' ≠ 'ـ' ∧ 'a' ≠ '-' ∧ 'a' ≠ '_' ∧
      (wordAscii 'a' = true ∨ isSpaceChar 'a' = true ∨ 'a' = '.' ∨ 'a' = '،' ∨ 'a' = ':') :=
  c1_character_set wordAscii tokWhole ['a', '.'] 'a' (by decide)

/-- C2: for every input text, the string returned by `clean_persian_text`
has only the ASCII space as whitespace (hence no newline: it is a single
line), never two adjacent whitespace characters, and no leading or trailing
whitespace. -/
theorem c2_whitespace_invariant (w : Char → Bool) (tok : List Char → List (List Char))
    (text : List Char) :
    (∀ c ∈ clean_persian_text w tok text, isSpaceChar c = true → c = ' ') ∧
    '\n' ∉ clean_persian_text w tok text ∧
    List.Chain' (fun a b => isSpaceChar a = false ∨ isSpaceChar b = false)
      (clean_persian_text w tok text) ∧
    (∀ c, (clean_persian_text w tok text).head? = some c → isSpaceChar c = false) ∧
    (∀ c, (clean_persian_text w tok text).getLast? = some c → isSpaceChar c = false) := by
  refine ⟨fun c hc => (mem_cleanFromTokens hc).2.2, ?_,
    chain'_cleanFromTokens w (tok text),
    fun c hc => head?_cleanFromTokens hc,
    fun c hc => getLast?_cleanFromTokens hc⟩
  intro hn
  exact absurd ((mem_cleanFromTokens hn).2.2 (by decide)) (by decide)

/-- Witness for C2 at a concrete input. -/
theorem c2_whitespace_invariant_witness :
    (∀ c ∈ clean_persian_text wordAscii tokWhole ['a', '\n', 'b'],
        isSpaceChar c = true → c = ' ') ∧
    '\n' ∉ clean_persian_text wordAscii tokWhole ['a', '\n', 'b'] ∧
    List.Chain' (fun a b => isSpaceChar a = false ∨ isSpaceChar b = false)
      (clean_persian_text wordAscii tokWhole ['a', '\n', 'b']) ∧
    (∀ c, (clean_persian_text wordAscii tokWhole ['a', '\n', 'b']).head? = some c →
        isSpaceChar c = false) ∧
    (∀ c, (clean_persian_text wordAscii tokWhole ['a', '\n', 'b']).getLast? = some c →
        isSpaceChar c = false) :=
  c2_whitespace_invariant wordAscii tokWhole ['a', '\n', 'b']

/-- C3: the Normalizer is total on token sequences — it is a function that
yields a result for every token sequence — and it maps the empty token
sequence to the empty string. -/
theorem c3_totality (w : Char → Bool) :
    (∀ ts : List (List Char), ∃ r : List Char, cleanFromTokens w ts = r) ∧
    cleanFromTokens w [] = [] :=
  ⟨fun ts => ⟨cleanFromTokens w ts, rfl⟩, rfl⟩

/-- C4: idempotence — if a token sequence joins back to an already-cleaned
text (identical tokenization effect), normalizing it returns that cleaned
text unchanged; every CleanedText is a fixed point of the join/strip/collapse
transform over its own tokens. -/
theorem c4_idempotence (w : Char → Bool) (ts ts' : List (List Char))
    (h : joinTokens ts' = cleanFromTokens w ts) :
    cleanFromTokens w ts' = cleanFromTokens w ts := by
  have e : cleanFromTokens w ts' =
      stripEnds (collapseWS (filterAllowed w (removeSpecial (joinTokens ts')))) := rfl
  rw [e, h, cleanFromTokens_fixed]

/-- Witness for C4 at a concrete input. -/
theorem c4_idempotence_witness :
    cleanFromTokens wordAscii [['a'], ['b']] =
      cleanFromTokens wordAscii [['a', ' ', ' ', 'b']] :=
  c4_idempotence wordAscii [['a', ' ', ' ', 'b']] [['a'], ['b']] (by decide)

/-! ### The Diff Reporter (`show_differences`, lines 38-53)

`difflib.ndiff` is an external library; it enters as the oracle `ndiff`
producing the line-based edit script. -/

/-- The line-boundary characters of `str.splitlines`. -/
def isLineBreakChar (c : Char) : Bool :=
  c = '\n' || c = '\r' || c = '\x0b' || c = '\x0c' || c = '\x1c' ||
  c = '\x1d' || c = '\x1e' || c = '\x85' || c = '\u2028' || c = '\u2029'

/-- Helper for `str.splitlines`: `acc` holds the current line reversed. -/
def splitLinesAux : List Char → List Char → List (List Char)
  | [], acc => if acc.isEmpty then [] else [acc.reverse]
  | '\r' :: '\n' :: rest, acc => acc.reverse :: splitLinesAux rest []
  | c :: rest, acc =>
    if isLineBreakChar c then acc.reverse :: splitLinesAux rest []
    else splitLinesAux rest (c :: acc)

/-- `str.splitlines` (lines 42-43). -/
def splitLines (l : List Char) : List (List Char) :=
  splitLinesAux l []

/-- `line.startswith(m + " ")` for a marker character `m` (line 52). -/
def startsWithMarker (m : Char) (l : List Char) : Bool :=
  match l with
  | c1 :: c2 :: _ => c1 = m && c2 = ' '
  | _ => false

/-- The edit script `diff = list(difflib.ndiff(original_lines, cleaned_lines))`
(lines 42-48), including the defensive replacement of an empty cleaned line
list by the single line `cleaned_text` (lines 45-46). -/
def diffScript (ndiff : List (List Char) → List (List Char) → List (List Char))
    (original_text cleaned_text : List Char) : List (List Char) :=
  ndiff (splitLines original_text)
    (if (splitLines cleaned_text).isEmpty then [cleaned_text]
     else splitLines cleaned_text)

/-- `show_differences` (lines 38-53): the (counter, entry) pairs actually
printed — the edit-script entries that start with `- ` or `+ `, each tagged
with its 1-based position in the whole edit script (`enumerate(diff, 1)`). -/
def show_differences (ndiff : List (List Char) → List (List Char) → List (List Char))
    (original_text cleaned_text : List Char) : List (Nat × List Char) :=
  ((diffScript ndiff original_text cleaned_text).enumFrom 1).filter
    fun p => startsWithMarker '-' p.2 || startsWithMarker '+' p.2

/-! ### The batch coordinator (`process_file` and `main`, lines 55-115)

The file system is external; it enters as oracles in `Env` fixing which
reads, writes and deletions succeed.  The observable file-system actions of
a run are collected in an `Event` trace, in program order. -/

/-- Outcome of one `process_file` call: `ok` (returned `True`), `failed`
(returned `False` after the caught read error, lines 60-62), `crashed` (an
uncaught exception escaped from the unprotected output write, lines 68-69). -/
inductive PFOutcome
  | ok
  | failed
  | crashed
deriving DecidableEq

/-- Observable file-system events of a batch run, in program order. -/
inductive Event
  | readFile (name : List Char) (ok : Bool)
  | writeFile (name : List Char) (content : List Char) (ok : Bool)
  | removeFile (name : List Char) (ok : Bool)
  | writeList (text : List Char)
deriving DecidableEq

/-- The external collaborators of a batch run: the word-character class and
tokenizer used by `clean_persian_text`, and the file-system oracles. -/
structure Env where
  w : Char → Bool
  tok : List Char → List (List Char)
  readResult : List Char → Option (List Char)
  writeOk : List Char → Bool
  deleteOk : List Char → Bool

/-- `"edited_" + filename` (line 96). -/
def outName (name : List Char) : List Char :=
  'e' :: 'd' :: 'i' :: 't' :: 'e' :: 'd' :: '_' :: name

/-- `filename.endswith(".txt")` (line 94). -/
def hasTxtExt (name : List Char) : Bool :=
  decide ((name.reverse.take 4).reverse = ['.', 't', 'x', 't'])

/-- `process_file` (lines 55-74): read the source — a failure is caught and
returns `False` (lines 60-62); clean the text; write the cleaned output —
a failure here is uncaught and escapes (lines 68-69); report `True`.  The
console prints and the diff report have no file-system effect. -/
def process_file (env : Env) (input_path output_path : List Char) :
    PFOutcome × List Event :=
  match env.readResult input_path with
  | none => (PFOutcome.failed, [Event.readFile input_path false])
  | some content =>
    let cleaned := clean_persian_text env.w env.tok content
    if env.writeOk output_path then
      (PFOutcome.ok,
        [Event.readFile input_path true, Event.writeFile output_path cleaned true])
    else
      (PFOutcome.crashed,
        [Event.readFile input_path true, Event.writeFile output_path cleaned false])

/-- A batch run's observable state: the `processed_files` list (line 90),
the event trace, and whether an uncaught exception aborted the run. -/
structure LoopResult where
  processed : List (List Char)
  events : List Event
  aborted : Bool
deriving DecidableEq

/-- The loop of `main` (lines 93-106): process each `.txt` file; on success
append the name to `processed_files` (line 100) and then try to delete the
source — a failure there is caught and only printed (lines 102-106); a read
failure skips the file; an uncaught write failure aborts the loop. -/
def mainLoop (env : Env) : List (List Char) → LoopResult
  | [] => ⟨[], [], false⟩
  | f :: fs =>
    if hasTxtExt f then
      match process_file env f (outName f) with
      | (PFOutcome.ok, evs) =>
        let r := mainLoop env fs
        ⟨f :: r.processed, evs ++ Event.removeFile f (env.deleteOk f) :: r.events,
          r.aborted⟩
      | (PFOutcome.failed, evs) =>
        let r := mainLoop env fs
        ⟨r.processed, evs ++ r.events, r.aborted⟩
      | (PFOutcome.crashed, evs) => ⟨[], evs, true⟩
    else mainLoop env fs

/-- The manifest text written by lines 110-112: each processed source
filename followed by a newline. -/
def manifestText (names : List (List Char)) : List Char :=
  names.foldr (fun n acc => n ++ '\n' :: acc) []

/-- `main` after the loop (lines 108-115): if `processed_files` is nonempty,
open `editedbook_list.txt` in overwrite mode (`"w"`) and write it once, one
name per line.  An aborted loop never reaches this point; the directory
setup (lines 84-86) has no bearing on the claims. -/
def runBatch (env : Env) (files : List (List Char)) : LoopResult :=
  let r := mainLoop env files
  if r.aborted then r
  else if r.processed.isEmpty then r
  else ⟨r.processed, r.events ++ [Event.writeList (manifestText r.processed)], false⟩

/-! ### Equations and inversion lemmas for `process_file` and the loop -/

theorem process_file_eq_none {env : Env} {inp : List Char} (out : List Char)
    (hr : env.readResult inp = none) :
    process_file env inp out = (PFOutcome.failed, [Event.readFile inp false]) := by
  unfold process_file
  rw [hr]

theorem process_file_eq_write_ok {env : Env} {inp out content : List Char}
    (hr : env.readResult inp = some content) (hw : env.writeOk out = true) :
    process_file env inp out =
      (PFOutcome.ok, [Event.readFile inp true,
        Event.writeFile out (clean_persian_text env.w env.tok content) true]) := by
  unfold process_file
  rw [hr, hw]
  rfl

theorem process_file_eq_write_fail {env : Env} {inp out content : List Char}
    (hr : env.readResult inp = some content) (hw : env.writeOk out = false) :
    process_file env inp out =
      (PFOutcome.crashed, [Event.readFile inp true,
        Event.writeFile out (clean_persian_text env.w env.tok content) false]) := by
  unfold process_file
  rw [hr, hw]
  rfl

theorem process_file_ok {env : Env} {inp out : List Char} {evs : List Event}
    (h : process_file env inp out = (PFOutcome.ok, evs)) :
    ∃ content, env.readResult inp = some content ∧ env.writeOk out = true ∧
      evs = [Event.readFile inp true,
        Event.writeFile out (clean_persian_text env.w env.tok content) true] := by
  cases hr : env.readResult inp with
  | none => rw [process_file_eq_none out hr] at h; simp at h
  | some content =>
    by_cases hw : env.writeOk out = true
    · rw [process_file_eq_write_ok hr hw] at h
      simp only [Prod.mk.injEq] at h
      exact ⟨content, rfl, hw, h.2.symm⟩
    · rw [process_file_eq_write_fail hr (by simpa using hw)] at h
      simp at h

theorem process_file_failed {env : Env} {inp out : List Char} {evs : List Event}
    (h : process_file env inp out = (PFOutcome.failed, evs)) :
    env.readResult inp = none ∧ evs = [Event.readFile inp false] := by
  cases hr : env.readResult inp with
  | none =>
    rw [process_file_eq_none out hr] at h
    simp only [Prod.mk.injEq] at h
    exact ⟨rfl, h.2.symm⟩
  | some content =>
    by_cases hw : env.writeOk out = true
    · rw [process_file_eq_write_ok hr hw] at h; simp at h
    · rw [process_file_eq_write_fail hr (by simpa using hw)] at h; simp at h

theorem process_file_crashed {env : Env} {inp out : List Char} {evs : List Event}
    (h : process_file env inp out = (PFOutcome.crashed, evs)) :
    ∃ content, env.readResult inp = some content ∧ env.writeOk out = false ∧
      evs = [Event.readFile inp true,
        Event.writeFile out (clean_persian_text env.w env.tok content) false] := by
  cases hr : env.readResult inp with
  | none => rw [process_file_eq_none out hr] at h; simp at h
  | some content =>
    by_cases hw : env.writeOk out = true
    · rw [process_file_eq_write_ok hr hw] at h; simp at h
    · have hw' : env.writeOk out = false := by simpa using hw
      rw [process_file_eq_write_fail hr hw'] at h
      simp only [Prod.mk.injEq] at h
      exact ⟨content, rfl, hw', h.2.symm⟩

theorem mainLoop_cons_noTxt {env : Env} {f : List Char} {fs : List (List Char)}
    (hext : hasTxtExt f = false) : mainLoop env (f :: fs) = mainLoop env fs := by
  rw [mainLoop, if_neg (by simp [hext])]

theorem mainLoop_cons_readFail {env : Env} {f : List Char} {fs : List (List Char)}
    (hext : hasTxtExt f = true) (hr : env.readResult f = none) :
    mainLoop env (f :: fs) =
      ⟨(mainLoop env fs).processed,
        Event.readFile f false :: (mainLoop env fs).events,
        (mainLoop env fs).aborted⟩ := by
  rw [mainLoop, if_pos hext, process_file_eq_none (outName f) hr]
  rfl

theorem mainLoop_cons_ok {env : Env} {f : List Char} {fs : List (List Char)}
    {content : List Char} (hext : hasTxtExt f = true)
    (hr : env.readResult f = some content) (hw : env.writeOk (outName f) = true) :
    mainLoop env (f :: fs) =
      ⟨f :: (mainLoop env fs).processed,
        Event.readFile f true ::
          Event.writeFile (outName f) (clean_persian_text env.w env.tok content) true ::
          Event.removeFile f (env.deleteOk f) :: (mainLoop env fs).events,
        (mainLoop env fs).aborted⟩ := by
  rw [mainLoop, if_pos hext, process_file_eq_write_ok hr hw]
  rfl

theorem mainLoop_cons_crash {env : Env} {f : List Char} {fs : List (List Char)}
    {content : List Char} (hext : hasTxtExt f = true)
    (hr : env.readResult f = some content) (hw : env.writeOk (outName f) = false) :
    mainLoop env (f :: fs) =
      ⟨[], [Event.readFile f true,
            Event.writeFile (outName f) (clean_persian_text env.w env.tok content) false],
        true⟩ := by
  rw [mainLoop, if_pos hext, process_file_eq_write_fail hr hw]

/-! ### The write-before-delete trace invariant -/

/-- A trace in which every deletion of a source file is preceded, within the
trace, by a completed (successful) write of the corresponding output file. -/
def WriteBeforeDelete (t : List Event) : Prop :=
  ∀ pre n ok post, t = pre ++ Event.removeFile n ok :: post →
    ∃ content, Event.writeFile (outName n) content true ∈ pre

theorem append_eq_middle {α : Type} {l1 l2 pre post : List α} {x : α}
    (h : l1 ++ l2 = pre ++ x :: post) :
    (∃ post1, l1 = pre ++ x :: post1 ∧ post = post1 ++ l2) ∨
    (∃ pre2, l2 = pre2 ++ x :: post ∧ pre = l1 ++ pre2) := by
  induction l1 generalizing pre with
  | nil =>
    right
    exact ⟨pre, by simpa using h, by simp⟩
  | cons a l1 ih =>
    cases pre with
    | nil =>
      simp only [List.nil_append, List.cons_append, List.cons.injEq] at h
      left
      exact ⟨l1, by simp [h.1], h.2.symm⟩
    | cons p pre' =>
      simp only [List.cons_append, List.cons.injEq] at h
      rcases ih h.2 with ⟨post1, e1, e2⟩ | ⟨pre2, e1, e2⟩
      · left
        exact ⟨post1, by simp [h.1, e1], e2⟩
      · right
        exact ⟨pre2, e1, by simp [h.1, e2]⟩

theorem wbd_append {t1 t2 : List Event} (h1 : WriteBeforeDelete t1)
    (h2 : WriteBeforeDelete t2) : WriteBeforeDelete (t1 ++ t2) := by
  intro pre n ok post heq
  rcases append_eq_middle heq with ⟨post1, e1, _⟩ | ⟨pre2, e1, e2⟩
  · exact h1 pre n ok post1 e1
  · obtain ⟨c, hc⟩ := h2 pre2 n ok post e1
    exact ⟨c, e2 ▸ List.mem_append_right t1 hc⟩

theorem wbd_of_no_remove {t : List Event}
    (h : ∀ n ok, Event.removeFile n ok ∉ t) : WriteBeforeDelete t := by
  intro pre n ok post heq
  exact absurd (heq ▸ List.mem_append_right pre (List.mem_cons_self _ _)) (h n ok)

theorem wbd_ok_segment (f c : List Char) (ok : Bool) :
    WriteBeforeDelete [Event.readFile f true, Event.writeFile (outName f) c true,
      Event.removeFile f ok] := by
  intro pre n ok' post heq
  match pre, heq with
  | [], heq => simp at heq
  | [a], heq => simp at heq
  | [a, b], heq =>
    simp only [List.cons_append, List.nil_append, List.cons.injEq] at heq
    obtain ⟨ha, hb, hrm, -⟩ := heq
    injection hrm with hn hok
    subst hn
    subst hb
    exact ⟨c, List.mem_cons_of_mem a (List.mem_cons_self _ _)⟩
  | a :: b :: d :: pre', heq =>
    simp only [List.cons_append, List.cons.injEq] at heq
    obtain ⟨-, -, -, habs⟩ := heq
    simp at habs

theorem wbd_mainLoop (env : Env) (files : List (List Char)) :
    WriteBeforeDelete (mainLoop env files).events := by
  induction files with
  | nil =>
    intro pre n ok post heq
    simp [mainLoop] at heq
  | cons f fs ih =>
    by_cases hext : hasTxtExt f = true
    · cases hr : env.readResult f with
      | none =>
        rw [mainLoop_cons_readFail hext hr]
        show WriteBeforeDelete ([Event.readFile f false] ++ (mainLoop env fs).events)
        exact wbd_append (wbd_of_no_remove (by simp)) ih
      | some content =>
        by_cases hw : env.writeOk (outName f) = true
        · rw [mainLoop_cons_ok hext hr hw]
          show WriteBeforeDelete
            ([Event.readFile f true,
              Event.writeFile (outName f) (clean_persian_text env.w env.tok content) true,
              Event.removeFile f (env.deleteOk f)] ++ (mainLoop env fs).events)
          exact wbd_append (wbd_ok_segment f _ _) ih
        · rw [mainLoop_cons_crash hext hr (by simpa using hw)]
          exact wbd_of_no_remove (by simp)
    · rw [mainLoop_cons_noTxt (by simpa using hext)]
      exact ih

theorem wbd_runBatch (env : Env) (files : List (List Char)) :
    WriteBeforeDelete (runBatch env files).events := by
  simp only [runBatch]
  split
  · exact wbd_mainLoop env files
  · split
    · exact wbd_mainLoop env files
    · exact wbd_append (wbd_mainLoop env files) (wbd_of_no_remove (by simp))

/-- Concrete filenames used to evaluate the theorems. -/
def fileA : List Char := ['a', '.', 't', 'x', 't']

def fileB : List Char := ['b', '.', 't', 'x', 't']

def fileC : List Char := ['c', '.', 't', 'x', 't']

/-- An environment in which every read, write and delete succeeds and every
source file holds the text `x`; used only to evaluate theorems. -/
def envAllOk : Env :=
  ⟨wordAscii, tokWhole, fun _ => some ['x'], fun _ => true, fun _ => true⟩

/-- C5: in every batch run, whenever the trace deletes (or attempts to
delete) a source file, a completed successful write of its cleaned output
file precedes the deletion in the trace; in particular a source file whose
output write failed is never deleted. -/
theorem c5_write_before_delete (env : Env) (files : List (List Char))
    (n : List Char) (ok : Bool) (pre post : List Event)
    (h : (runBatch env files).events = pre ++ Event.removeFile n ok :: post) :
    ∃ content, Event.writeFile (outName n) content true ∈ pre :=
  wbd_runBatch env files pre n ok post h

/-- Witness for C5 at a concrete run. -/
theorem c5_write_before_delete_witness :
    ∃ content, Event.writeFile (outName fileA) content true ∈
      [Event.readFile fileA true, Event.writeFile (outName fileA) ['x'] true] :=
  c5_write_before_delete envAllOk [fileA] fileA true
    [Event.readFile fileA true, Event.writeFile (outName fileA) ['x'] true]
    [Event.writeList (manifestText [fileA])] (by decide)

/-! ### Equations for the post-loop manifest write -/

theorem runBatch_aborted {env : Env} {files : List (List Char)}
    (hab : (mainLoop env files).aborted = true) :
    runBatch env files = mainLoop env files := by
  simp only [runBatch]
  rw [if_pos hab]

theorem runBatch_empty {env : Env} {files : List (List Char)}
    (hab : (mainLoop env files).aborted = false)
    (he : (mainLoop env files).processed = []) :
    runBatch env files = mainLoop env files := by
  simp only [runBatch]
  rw [if_neg (by simp [hab]), if_pos (by simp [he])]

theorem runBatch_completed {env : Env} {files : List (List Char)}
    (hab : (mainLoop env files).aborted = false)
    (hne : (mainLoop env files).processed ≠ []) :
    runBatch env files =
      ⟨(mainLoop env files).processed,
        (mainLoop env files).events ++
          [Event.writeList (manifestText (mainLoop env files).processed)],
        false⟩ := by
  simp only [runBatch]
  rw [if_neg (by simp [hab]), if_neg (by simp [List.isEmpty_iff, hne])]

theorem runBatch_processed_eq (env : Env) (files : List (List Char)) :
    (runBatch env files).processed = (mainLoop env files).processed := by
  simp only [runBatch]
  split
  · rfl
  · split <;> rfl

theorem runBatch_events_eq_or (env : Env) (files : List (List Char)) :
    (runBatch env files).events = (mainLoop env files).events ∨
    (runBatch env files).events = (mainLoop env files).events ++
      [Event.writeList (manifestText (mainLoop env files).processed)] := by
  simp only [runBatch]
  split
  · exact Or.inl rfl
  · split
    · exact Or.inl rfl
    · exact Or.inr rfl

/-- The loop itself never writes the manifest: `writeList` only appears
after the loop (lines 108-115). -/
theorem no_writeList_mainLoop (env : Env) (files : List (List Char)) :
    ∀ text, Event.writeList text ∉ (mainLoop env files).events := by
  induction files with
  | nil => intro text; simp [mainLoop]
  | cons g gs ih =>
    intro text
    by_cases hext : hasTxtExt g = true
    · cases hg : env.readResult g with
      | none =>
        rw [mainLoop_cons_readFail hext hg]
        intro hmem
        rcases List.mem_cons.mp hmem with h | h
        · cases h
        · exact ih text h
      | some content =>
        by_cases hw : env.writeOk (outName g) = true
        · rw [mainLoop_cons_ok hext hg hw]
          intro hmem
          rcases List.mem_cons.mp hmem with h | hmem
          · cases h
          rcases List.mem_cons.mp hmem with h | hmem
          · cases h
          rcases List.mem_cons.mp hmem with h | hmem
          · cases h
          · exact ih text hmem
        · rw [mainLoop_cons_crash hext hg (by simpa using hw)]
          simp
    · rw [mainLoop_cons_noTxt (by simpa using hext)]
      exact ih text

/-- `manifestText` is one filename per line. -/
theorem manifestText_flatten (names : List (List Char)) :
    manifestText names = (names.map fun nm => nm ++ ['\n']).flatten := by
  induction names with
  | nil => rfl
  | cons nm names ih => simp [manifestText, List.flatten] at ih ⊢; simp [ih]

/-- An environment in which only the output write for `fileB` fails; used
only to evaluate theorems and counterexamples. -/
def envWriteFailB : Env :=
  ⟨wordAscii, tokWhole, fun _ => some ['x'],
   fun n => decide (n ≠ outName fileB), fun _ => true⟩

/-- C6 counterexample: with the source files `b.txt, c.txt` where only the
output write for `b.txt` fails, the batch aborts on the write error instead
of catching it at file granularity: nothing is processed, `c.txt` is never
even read — although processing `c.txt` alone would succeed.  This refutes
the claim that every per-file output-write error is caught and that only
tokenizer resource-initialization failure aborts the run. -/
theorem c6_counterexample :
    (mainLoop envWriteFailB [fileB, fileC]).aborted = true ∧
    (mainLoop envWriteFailB [fileB, fileC]).processed = [] ∧
    Event.readFile fileC true ∉ (mainLoop envWriteFailB [fileB, fileC]).events ∧
    (mainLoop envWriteFailB [fileC]).processed = [fileC] := by
  decide

/-- C6 amended: source-read errors and source-delete errors are caught and
handled at file granularity and the loop continues with the remaining
files, but an output-write error is not caught: it aborts the whole batch
loop, dropping the remaining files (tokenizer resource-initialization
failure, raised at import time, also aborts the run, before the loop
starts). -/
theorem c6_error_propagation (env : Env) (f : List Char) (fs : List (List Char))
    (hext : hasTxtExt f = true) :
    (env.readResult f = none →
      mainLoop env (f :: fs) =
        ⟨(mainLoop env fs).processed,
          Event.readFile f false :: (mainLoop env fs).events,
          (mainLoop env fs).aborted⟩) ∧
    (∀ content, env.readResult f = some content → env.writeOk (outName f) = true →
      mainLoop env (f :: fs) =
        ⟨f :: (mainLoop env fs).processed,
          Event.readFile f true ::
            Event.writeFile (outName f) (clean_persian_text env.w env.tok content) true ::
            Event.removeFile f (env.deleteOk f) :: (mainLoop env fs).events,
          (mainLoop env fs).aborted⟩) ∧
    (∀ content, env.readResult f = some content → env.writeOk (outName f) = false →
      mainLoop env (f :: fs) =
        ⟨[], [Event.readFile f true,
              Event.writeFile (outName f) (clean_persian_text env.w env.tok content) false],
          true⟩) :=
  ⟨fun hr => mainLoop_cons_readFail hext hr,
   fun _ hr hw => mainLoop_cons_ok hext hr hw,
   fun _ hr hw => mainLoop_cons_crash hext hr hw⟩

/-- Witness for the amended C6 at a concrete environment. -/
theorem c6_error_propagation_witness :
    (envWriteFailB.readResult fileB = none →
      mainLoop envWriteFailB [fileB, fileC] =
        ⟨(mainLoop envWriteFailB [fileC]).processed,
          Event.readFile fileB false :: (mainLoop envWriteFailB [fileC]).events,
          (mainLoop envWriteFailB [fileC]).aborted⟩) ∧
    (∀ content, envWriteFailB.readResult fileB = some content →
      envWriteFailB.writeOk (outName fileB) = true →
      mainLoop envWriteFailB [fileB, fileC] =
        ⟨fileB :: (mainLoop envWriteFailB [fileC]).processed,
          Event.readFile fileB true ::
            Event.writeFile (outName fileB)
              (clean_persian_text envWriteFailB.w envWriteFailB.tok content) true ::
            Event.removeFile fileB (envWriteFailB.deleteOk fileB) ::
            (mainLoop envWriteFailB [fileC]).events,
          (mainLoop envWriteFailB [fileC]).aborted⟩) ∧
    (∀ content, envWriteFailB.readResult fileB = some content →
      envWriteFailB.writeOk (outName fileB) = false →
      mainLoop envWriteFailB [fileB, fileC] =
        ⟨[], [Event.readFile fileB true,
              Event.writeFile (outName fileB)
                (clean_persian_text envWriteFailB.w envWriteFailB.tok content) false],
          true⟩) :=
  c6_error_propagation envWriteFailB fileB [fileC] (by decide)

/-- C7: if a file's cleaned output was written successfully and the
subsequent source deletion fails, the file is still recorded in
`processed_files`, the loop continues with the remaining files unchanged,
and — whenever the rest of the run completes — the written manifest still
lists the file. -/
theorem c7_delete_failure_nonfatal (env : Env) (f : List Char)
    (fs : List (List Char)) (content : List Char) (hext : hasTxtExt f = true)
    (hr : env.readResult f = some content) (hw : env.writeOk (outName f) = true)
    (hd : env.deleteOk f = false) :
    (mainLoop env (f :: fs)).processed = f :: (mainLoop env fs).processed ∧
    f ∈ (mainLoop env (f :: fs)).processed ∧
    (mainLoop env (f :: fs)).aborted = (mainLoop env fs).aborted ∧
    (mainLoop env (f :: fs)).events =
      Event.readFile f true ::
        Event.writeFile (outName f) (clean_persian_text env.w env.tok content) true ::
        Event.removeFile f false :: (mainLoop env fs).events ∧
    ((mainLoop env fs).aborted = false →
      f ∈ (runBatch env (f :: fs)).processed ∧
      Event.writeList (manifestText (mainLoop env (f :: fs)).processed) ∈
        (runBatch env (f :: fs)).events) := by
  have e := @mainLoop_cons_ok env f fs content hext hr hw
  rw [hd] at e
  refine ⟨by rw [e], by rw [e]; exact List.mem_cons_self _ _, by rw [e], by rw [e], ?_⟩
  intro hab
  have hab' : (mainLoop env (f :: fs)).aborted = false := by rw [e]; exact hab
  have hne : (mainLoop env (f :: fs)).processed ≠ [] := by
    rw [e]
    exact List.cons_ne_nil _ _
  rw [runBatch_completed hab' hne]
  constructor
  · rw [e]
    exact List.mem_cons_self _ _
  · exact List.mem_append_right _ (List.mem_cons_self _ _)

/-- An environment in which only the deletion of `fileA` fails; used only
to evaluate theorems. -/
def envDeleteFailA : Env :=
  ⟨wordAscii, tokWhole, fun _ => some ['x'], fun _ => true,
   fun n => decide (n ≠ fileA)⟩

/-- Witness for C7 at a concrete environment in which the deletion of
`a.txt` fails. -/
theorem c7_delete_failure_nonfatal_witness :
    (mainLoop envDeleteFailA [fileA]).processed = fileA :: (mainLoop envDeleteFailA ([] : List (List Char))).processed ∧
    fileA ∈ (mainLoop envDeleteFailA [fileA]).processed ∧
    (mainLoop envDeleteFailA [fileA]).aborted =
      (mainLoop envDeleteFailA ([] : List (List Char))).aborted ∧
    (mainLoop envDeleteFailA [fileA]).events =
      Event.readFile fileA true ::
        Event.writeFile (outName fileA)
          (clean_persian_text envDeleteFailA.w envDeleteFailA.tok ['x']) true ::
        Event.removeFile fileA false ::
        (mainLoop envDeleteFailA ([] : List (List Char))).events ∧
    ((mainLoop envDeleteFailA ([] : List (List Char))).aborted = false →
      fileA ∈ (runBatch envDeleteFailA [fileA]).processed ∧
      Event.writeList (manifestText (mainLoop envDeleteFailA [fileA]).processed) ∈
        (runBatch envDeleteFailA [fileA]).events) :=
  c7_delete_failure_nonfatal envDeleteFailA fileA [] ['x'] (by decide) (by decide)
    (by decide) (by decide)

/-- `True` iff the trace contains a manifest write. -/
def hasManifestWrite (t : List Event) : Bool :=
  t.any fun e =>
    match e with
    | Event.writeList _ => true
    | _ => false

/-- C8 counterexample: with the source files `a.txt, b.txt` where only the
output write for `b.txt` fails, `a.txt` is processed successfully (its
cleaned output is written and it is recorded), yet no manifest is ever
written, because the run aborts before reaching the manifest step.  This
refutes "written if and only if at least one file was processed
successfully". -/
theorem c8_counterexample :
    Event.writeFile (outName fileA) ['x'] true ∈
      (runBatch envWriteFailB [fileA, fileB]).events ∧
    (runBatch envWriteFailB [fileA, fileB]).processed = [fileA] ∧
    hasManifestWrite (runBatch envWriteFailB [fileA, fileB]).events = false := by
  decide

/-- C8 amended: the loop itself never writes the manifest; if the loop runs
to completion, the manifest is written exactly once, at the very end (in
overwrite mode, one processed source filename per line, in order), if and
only if at least one file was processed successfully; but if the loop
aborts on an uncaught output-write error, no manifest is written even when
earlier files were processed successfully. -/
theorem c8_manifest (env : Env) (files : List (List Char)) :
    ((mainLoop env files).aborted = false → (mainLoop env files).processed ≠ [] →
      (runBatch env files).events = (mainLoop env files).events ++
        [Event.writeList (manifestText (mainLoop env files).processed)]) ∧
    ((mainLoop env files).aborted = false → (mainLoop env files).processed = [] →
      (runBatch env files).events = (mainLoop env files).events) ∧
    ((mainLoop env files).aborted = true →
      (runBatch env files).events = (mainLoop env files).events) ∧
    (∀ text, Event.writeList text ∉ (mainLoop env files).events) ∧
    manifestText (mainLoop env files).processed =
      ((mainLoop env files).processed.map fun nm => nm ++ ['\n']).flatten :=
  ⟨fun hab hne => by rw [runBatch_completed hab hne],
   fun hab he => by rw [runBatch_empty hab he],
   fun hab => by rw [runBatch_aborted hab],
   no_writeList_mainLoop env files,
   manifestText_flatten _⟩

/-- Witness for the amended C8 at a concrete run. -/
theorem c8_manifest_witness :
    ((mainLoop envAllOk [fileA]).aborted = false →
      (mainLoop envAllOk [fileA]).processed ≠ [] →
      (runBatch envAllOk [fileA]).events = (mainLoop envAllOk [fileA]).events ++
        [Event.writeList (manifestText (mainLoop envAllOk [fileA]).processed)]) ∧
    ((mainLoop envAllOk [fileA]).aborted = false →
      (mainLoop envAllOk [fileA]).processed = [] →
      (runBatch envAllOk [fileA]).events = (mainLoop envAllOk [fileA]).events) ∧
    ((mainLoop envAllOk [fileA]).aborted = true →
      (runBatch envAllOk [fileA]).events = (mainLoop envAllOk [fileA]).events) ∧
    (∀ text, Event.writeList text ∉ (mainLoop envAllOk [fileA]).events) ∧
    manifestText (mainLoop envAllOk [fileA]).processed =
      ((mainLoop envAllOk [fileA]).processed.map fun nm => nm ++ ['\n']).flatten :=
  c8_manifest envAllOk [fileA]

/-! ### Read-error atomicity (C10) -/

theorem outName_inj {a b : List Char} (h : outName a = outName b) : a = b := by
  simpa [outName] using h

theorem not_processed_of_read_none {env : Env} {f : List Char}
    (hr : env.readResult f = none) :
    ∀ files, f ∉ (mainLoop env files).processed := by
  intro files
  induction files with
  | nil => simp [mainLoop]
  | cons g gs ih =>
    by_cases hext : hasTxtExt g = true
    · cases hg : env.readResult g with
      | none =>
        rw [mainLoop_cons_readFail hext hg]
        exact ih
      | some content =>
        by_cases hw : env.writeOk (outName g) = true
        · rw [mainLoop_cons_ok hext hg hw]
          intro hmem
          rcases List.mem_cons.mp hmem with rfl | hmem'
          · rw [hr] at hg
            cases hg
          · exact ih hmem'
        · rw [mainLoop_cons_crash hext hg (by simpa using hw)]
          simp
    · rw [mainLoop_cons_noTxt (by simpa using hext)]
      exact ih

theorem no_write_event_of_read_none {env : Env} {f : List Char}
    (hr : env.readResult f = none) :
    ∀ files content ok,
      Event.writeFile (outName f) content ok ∉ (mainLoop env files).events := by
  intro files
  induction files with
  | nil => intro c ok; simp [mainLoop]
  | cons g gs ih =>
    intro c ok
    by_cases hext : hasTxtExt g = true
    · cases hg : env.readResult g with
      | none =>
        rw [mainLoop_cons_readFail hext hg]
        intro hmem
        rcases List.mem_cons.mp hmem with h | h
        · cases h
        · exact ih c ok h
      | some content =>
        by_cases hw : env.writeOk (outName g) = true
        · rw [mainLoop_cons_ok hext hg hw]
          intro hmem
          rcases List.mem_cons.mp hmem with h | hmem
          · cases h
          rcases List.mem_cons.mp hmem with h | hmem
          · injection h with hn hc hok
            cases outName_inj hn
            rw [hr] at hg
            cases hg
          rcases List.mem_cons.mp hmem with h | hmem
          · cases h
          · exact ih c ok hmem
        · rw [mainLoop_cons_crash hext hg (by simpa using hw)]
          intro hmem
          rcases List.mem_cons.mp hmem with h | hmem
          · cases h
          rcases List.mem_cons.mp hmem with h | hmem
          · injection h with hn hc hok
            cases outName_inj hn
            rw [hr] at hg
            cases hg
          · cases hmem
    · rw [mainLoop_cons_noTxt (by simpa using hext)]
      exact ih c ok

theorem no_remove_event_of_read_none {env : Env} {f : List Char}
    (hr : env.readResult f = none) :
    ∀ files ok, Event.removeFile f ok ∉ (mainLoop env files).events := by
  intro files
  induction files with
  | nil => intro ok; simp [mainLoop]
  | cons g gs ih =>
    intro ok
    by_cases hext : hasTxtExt g = true
    · cases hg : env.readResult g with
      | none =>
        rw [mainLoop_cons_readFail hext hg]
        intro hmem
        rcases List.mem_cons.mp hmem with h | h
        · cases h
        · exact ih ok h
      | some content =>
        by_cases hw : env.writeOk (outName g) = true
        · rw [mainLoop_cons_ok hext hg hw]
          intro hmem
          rcases List.mem_cons.mp hmem with h | hmem
          · cases h
          rcases List.mem_cons.mp hmem with h | hmem
          · cases h
          rcases List.mem_cons.mp hmem with h | hmem
          · injection h with hn hok
            subst hn
            rw [hr] at hg
            cases hg
          · exact ih ok hmem
        · rw [mainLoop_cons_crash hext hg (by simpa using hw)]
          simp
    · rw [mainLoop_cons_noTxt (by simpa using hext)]
      exact ih ok

/-- C10: if reading a source file fails, `process_file` returns `False`
with the read as its only file-system action; across the whole run that
file's output is never created or written, the source file is never
deleted, and its name never enters the `processed_files` record (hence not
the manifest): the file-system state for that file is unchanged. -/
theorem c10_read_error_atomicity (env : Env) (f : List Char)
    (files : List (List Char)) (hr : env.readResult f = none) :
    process_file env f (outName f) = (PFOutcome.failed, [Event.readFile f false]) ∧
    f ∉ (runBatch env files).processed ∧
    (∀ content ok,
      Event.writeFile (outName f) content ok ∉ (runBatch env files).events) ∧
    (∀ ok, Event.removeFile f ok ∉ (runBatch env files).events) := by
  refine ⟨process_file_eq_none (outName f) hr, ?_, ?_, ?_⟩
  · rw [runBatch_processed_eq]
    exact not_processed_of_read_none hr files
  · intro c ok
    rcases runBatch_events_eq_or env files with e | e <;> rw [e]
    · exact no_write_event_of_read_none hr files c ok
    · intro hmem
      rcases List.mem_append.mp hmem with h | h
      · exact no_write_event_of_read_none hr files c ok h
      · simp at h
  · intro ok
    rcases runBatch_events_eq_or env files with e | e <;> rw [e]
    · exact no_remove_event_of_read_none hr files ok
    · intro hmem
      rcases List.mem_append.mp hmem with h | h
      · exact no_remove_event_of_read_none hr files ok h
      · simp at h

/-- An environment in which only the read of `fileA` fails; used only to
evaluate theorems. -/
def envReadFailA : Env :=
  ⟨wordAscii, tokWhole,
   fun n => if n = fileA then none else some ['x'],
   fun _ => true, fun _ => true⟩

/-- Witness for C10 at a concrete run. -/
theorem c10_read_error_atomicity_witness :
    process_file envReadFailA fileA (outName fileA) =
      (PFOutcome.failed, [Event.readFile fileA false]) ∧
    fileA ∉ (runBatch envReadFailA [fileA, fileC]).processed ∧
    (∀ content ok, Event.writeFile (outName fileA) content ok ∉
      (runBatch envReadFailA [fileA, fileC]).events) ∧
    (∀ ok, Event.removeFile fileA ok ∉
      (runBatch envReadFailA [fileA, fileC]).events) :=
  c10_read_error_atomicity envReadFailA fileA [fileA, fileC] (by decide)

/-- C9: the Diff Reporter prints only edit-script entries that are
insertion or deletion markers (`+ ` or `- `), and each printed entry is
tagged with the running counter `enumerate(diff, 1)`: its 1-based position
among all emitted edit-script entries, not a per-source-line position. -/
theorem c9_diff_reporter (ndiff : List (List Char) → List (List Char) → List (List Char))
    (original_text cleaned_text : List Char) (i : Nat) (line : List Char)
    (h : (i, line) ∈ show_differences ndiff original_text cleaned_text) :
    (startsWithMarker '-' line = true ∨ startsWithMarker '+' line = true) ∧
    1 ≤ i ∧
    (diffScript ndiff original_text cleaned_text)[i - 1]? = some line := by
  unfold show_differences at h
  have h1 := List.mem_filter.mp h
  have h2 := List.mk_mem_enumFrom_iff_le_and_getElem?_sub.mp h1.1
  exact ⟨by simpa using h1.2, h2.1, h2.2⟩

/-- A stub edit-script engine used only to evaluate theorems. -/
def ndiffStub : List (List Char) → List (List Char) → List (List Char) :=
  fun _ _ => [['-', ' ', 'x'], ['?', ' ', 'x'], ['+', ' ', 'y']]

/-- Witness for C9 at a concrete edit script. -/
theorem c9_diff_reporter_witness :
    (startsWithMarker '-' ['+', ' ', 'y'] = true ∨
      startsWithMarker '+' ['+', ' ', 'y'] = true) ∧
    1 ≤ 3 ∧
    (diffScript ndiffStub ['x'] ['y'])[3 - 1]? = some ['+', ' ', 'y'] :=
  c9_diff_reporter ndiffStub ['x'] ['y'] 3 ['+', ' ', 'y'] (by decide)

end EditorText
